import Mathlib

/-!
Verification of the layered-canvas engine of SQRIBBLE_3DS (src/source/main.c).

The C globals are modelled as explicit state: pixel buffers (`u8` arrays) become
functions from indices to `Nat` (values kept in `[0,255]` by hypotheses where it
matters), the history stacks become index functions plus integer tops, and each
C function that the claims mention is translated into a Lean definition that
mirrors its loops (as list folds over the same iteration space) and its
arithmetic (machine ints as `Int`/`Nat` with the source's own guards).
-/

/-- Screen width in logical coordinates (`SCREEN_WIDTH`). -/
def SCREEN_WIDTH : Nat := 320

/-- Screen height in logical coordinates (`SCREEN_HEIGHT`). -/
def SCREEN_HEIGHT : Nat := 240

/-- Framebuffer width after the 90 degree rotation (`FB_WIDTH`). -/
def FB_WIDTH : Nat := 240

/-- Framebuffer height after the 90 degree rotation (`FB_HEIGHT`). -/
def FB_HEIGHT : Nat := 320

/-- Maximum number of undo/redo snapshots (`MAX_HISTORY`). -/
def MAX_HISTORY : Nat := 20

/-! ### Generic pointwise-update and fold helpers

The C code mutates arrays inside nested `for` loops.  We model an array as a
function `β → Nat` and a single array store as `upd`; a loop nest becomes a
`List.foldl` over its iteration space.  The lemmas below let us read off the
final value of one cell from the fold. -/

/-- One array store: `f[i] = v`. -/
def upd {β : Type} [DecidableEq β] (f : β → Nat) (i : β) (v : Nat) : β → Nat :=
  fun j => if j = i then v else f j

theorem upd_self {β : Type} [DecidableEq β] (f : β → Nat) (i : β) (v : Nat) :
    upd f i v i = v := by
  simp [upd]

theorem upd_other {β : Type} [DecidableEq β] (f : β → Nat) (i j : β) (v : Nat)
    (h : j ≠ i) : upd f i v j = f j := by
  simp [upd, h]

section FoldLemmas

variable {γ β : Type}

/-- If no step of the loop writes cell `j`, the loop preserves `j`. -/
theorem foldl_preserve_point (F : (β → Nat) → γ → β → Nat) (j : β)
    (l : List γ) (m : β → Nat)
    (h : ∀ p ∈ l, ∀ g : β → Nat, F g p j = g j) :
    l.foldl F m j = m j := by
  induction l generalizing m with
  | nil => rfl
  | cons p l ih =>
    have hp := h p (by simp)
    have hrest : ∀ q ∈ l, ∀ g : β → Nat, F g q j = g j := fun q hq => h q (by simp [hq])
    simpa [hp] using ih (F m p) hrest

/-- If every step can only decrease cell `j`, the loop can only decrease it. -/
theorem foldl_le_point (F : (β → Nat) → γ → β → Nat) (j : β)
    (l : List γ) (m : β → Nat)
    (h : ∀ p ∈ l, ∀ g : β → Nat, F g p j ≤ g j) :
    l.foldl F m j ≤ m j := by
  induction l generalizing m with
  | nil => exact le_rfl
  | cons p l ih =>
    have hp := h p (by simp)
    have hrest : ∀ q ∈ l, ∀ g : β → Nat, F g q j ≤ g j := fun q hq => h q (by simp [hq])
    exact le_trans (ih (F m p) hrest) (hp m)

/-- If every step either preserves cell `j` or writes `0` there, then once the
cell is `0` it stays `0`. -/
theorem foldl_zero_stable (F : (β → Nat) → γ → β → Nat) (j : β)
    (l : List γ) (m : β → Nat)
    (h : ∀ p ∈ l, ∀ g : β → Nat, F g p j = g j ∨ F g p j = 0)
    (h0 : m j = 0) :
    l.foldl F m j = 0 := by
  induction l generalizing m with
  | nil => exact h0
  | cons p l ih =>
    have hrest : ∀ q ∈ l, ∀ g : β → Nat, F g q j = g j ∨ F g q j = 0 :=
      fun q hq => h q (by simp [hq])
    rcases h p (by simp) m with hkeep | hzero
    · exact ih (F m p) hrest (hkeep.trans h0)
    · exact ih (F m p) hrest hzero

/-- If every step either preserves cell `j` or writes `0` there, and some step
unconditionally writes `0` there, the loop ends with `0` at `j`. -/
theorem foldl_writes_zero (F : (β → Nat) → γ → β → Nat) (j : β)
    (l : List γ) (m : β → Nat)
    (h : ∀ p ∈ l, ∀ g : β → Nat, F g p j = g j ∨ F g p j = 0)
    (p : γ) (hp : p ∈ l) (hw : ∀ g : β → Nat, F g p j = 0) :
    l.foldl F m j = 0 := by
  obtain ⟨l1, l2, rfl⟩ := List.append_of_mem hp
  rw [List.foldl_append]
  have h2 : ∀ q ∈ l2, ∀ g : β → Nat, F g q j = g j ∨ F g q j = 0 := by
    intro q hq g
    exact h q (by simp [hq]) g
  simpa using foldl_zero_stable F j l2 (F (l1.foldl F m) p) h2 (hw _)

/-- If exactly one element of a duplicate-free loop writes cell `j`, and the
value it writes depends only on the current value of cell `j`, the loop's
effect at `j` is that single step's effect. -/
theorem foldl_single_writer (F : (β → Nat) → γ → β → Nat) (j : β)
    (l : List γ) (m : β → Nat) (hl : l.Nodup) (p : γ) (hp : p ∈ l)
    (hother : ∀ q ∈ l, q ≠ p → ∀ g : β → Nat, F g q j = g j)
    (hdep : ∀ g g' : β → Nat, g j = g' j → F g p j = F g' p j) :
    l.foldl F m j = F m p j := by
  obtain ⟨l1, l2, rfl⟩ := List.append_of_mem hp
  have hnodup := hl
  rw [List.nodup_append] at hnodup
  have hpl1 : p ∉ l1 := fun hmem => hnodup.2.2 hmem (by simp)
  have hpl2 : p ∉ l2 := by
    have := hnodup.2.1
    simp only [List.nodup_cons] at this
    exact this.1
  have h1 : ∀ q ∈ l1, ∀ g : β → Nat, F g q j = g j := by
    intro q hq g
    exact hother q (by simp [hq]) (fun hqp => hpl1 (hqp ▸ hq)) g
  have h2 : ∀ q ∈ l2, ∀ g : β → Nat, F g q j = g j := by
    intro q hq g
    exact hother q (by simp [hq]) (fun hqp => hpl2 (hqp ▸ hq)) g
  rw [List.foldl_append]
  have hmid : (l1.foldl F m) j = m j := foldl_preserve_point F j l1 m h1
  calc (l2.foldl F (F (l1.foldl F m) p)) j
      = F (l1.foldl F m) p j := foldl_preserve_point F j l2 _ h2
    _ = F m p j := hdep _ _ hmid

end FoldLemmas

/-! ### Iteration spaces

Nested `for` loops become folds over `prodList` of the two index ranges, in the
same (outer, inner) order as the C loops. -/

/-- All pairs of an outer and an inner iteration range, outer index first. -/
def prodList {A B : Type} (l1 : List A) (l2 : List B) : List (A × B) :=
  l1.flatMap (fun a => l2.map (fun b => (a, b)))

theorem mem_prodList {A B : Type} {l1 : List A} {l2 : List B} {p : A × B} :
    p ∈ prodList l1 l2 ↔ p.1 ∈ l1 ∧ p.2 ∈ l2 := by
  cases p with
  | mk a b =>
    simp only [prodList, List.mem_flatMap, List.mem_map, Prod.mk.injEq]
    constructor
    · rintro ⟨x, hx, y, hy, rfl, rfl⟩
      exact ⟨hx, hy⟩
    · rintro ⟨ha, hb⟩
      exact ⟨a, ha, b, hb, rfl, rfl⟩

theorem nodup_prodList {A B : Type} {l1 : List A} {l2 : List B}
    (h1 : l1.Nodup) (h2 : l2.Nodup) : (prodList l1 l2).Nodup := by
  induction l1 with
  | nil => simp [prodList]
  | cons a l1 ih =>
    have hnd : l1.Nodup := (List.nodup_cons.mp h1).2
    have hna : a ∉ l1 := (List.nodup_cons.mp h1).1
    simp only [prodList, List.flatMap_cons]
    rw [List.nodup_append]
    refine ⟨h2.map (fun x y hxy => by simpa using congrArg Prod.snd hxy), ih hnd, ?_⟩
    intro p hpa hpl
    have h1p : p.1 = a := by
      rcases List.mem_map.mp hpa with ⟨b, _, rfl⟩
      rfl
    have h1p' : p.1 ∈ l1 := (mem_prodList.mp hpl).1
    exact hna (h1p ▸ h1p')

/-- The iteration range `-r, ..., r` of the brush loops (empty when `r < 0`,
exactly as a C `for (d = -r; d <= r; d++)` loop). -/
def intRange (r : Int) : List Int :=
  (List.range (2 * r + 1).toNat).map (fun (k : Nat) => -r + (k : Int))

theorem mem_intRange {r a : Int} : a ∈ intRange r ↔ -r ≤ a ∧ a ≤ r := by
  unfold intRange
  rw [List.mem_map]
  constructor
  · rintro ⟨k, hk, rfl⟩
    rw [List.mem_range] at hk
    omega
  · rintro ⟨h1, h2⟩
    refine ⟨(a + r).toNat, ?_, ?_⟩
    · rw [List.mem_range]; omega
    · omega

theorem nodup_intRange (r : Int) : (intRange r).Nodup := by
  unfold intRange
  refine List.Nodup.map ?_ (List.nodup_range _)
  intro x y hxy
  simp only at hxy
  omega

/-! ### C5 — coordinate transform (the `maskIdx` computation of `scratchAt`) -/

/-- The buffer index for logical screen coordinates, as computed in
`scratchAt` (and everywhere else): `index = x * 240 + (239 - y)`. -/
def toBuffer (x y : Nat) : Nat := x * 240 + (239 - y)

/-- Inverse of `toBuffer`: recover `(x, y)` from a buffer index. -/
def fromBuffer (i : Nat) : Nat × Nat := (i / 240, 239 - i % 240)

/-- C5: `toBuffer` is a bijection from `[0,320) × [0,240)` onto `[0,76800)`:
its image lies in range, `fromBuffer` inverts it, it is injective on the
domain, and every buffer index is hit. -/
theorem toBuffer_bijection :
    (∀ x y : Nat, x < 320 → y < 240 →
      toBuffer x y < 320 * 240 ∧ fromBuffer (toBuffer x y) = (x, y)) ∧
    (∀ x y x' y' : Nat, x < 320 → y < 240 → x' < 320 → y' < 240 →
      toBuffer x y = toBuffer x' y' → x = x' ∧ y = y') ∧
    (∀ i : Nat, i < 320 * 240 → ∃ x y : Nat, x < 320 ∧ y < 240 ∧ toBuffer x y = i) := by
  refine ⟨?_, ?_, ?_⟩
  · intro x y hx hy
    constructor
    · simp only [toBuffer]; omega
    · simp only [toBuffer, fromBuffer, Prod.mk.injEq]
      omega
  · intro x y x' y' hx hy hx' hy' heq
    simp only [toBuffer] at heq
    omega
  · intro i hi
    refine ⟨i / 240, 239 - i % 240, by omega, by omega, ?_⟩
    simp only [toBuffer]
    omega

/-- Witness for C5 at `(x, y) = (17, 5)`. -/
theorem toBuffer_bijection_witness :
    toBuffer 17 5 < 320 * 240 ∧ fromBuffer (toBuffer 17 5) = (17, 5) :=
  toBuffer_bijection.1 17 5 (by decide) (by decide)

/-! ### C1 — alpha compositing (`compositeImage`) -/

/-- Definition of `compositeImage` from the source: for every byte index `j` of the
`FB_WIDTH * FB_HEIGHT` pixel buffer, blends `bottom` and `top` using the mask
value of the pixel `j / 3` with integer (truncating) division by 255.  Bytes
outside the buffer keep the previous contents of `dest`. -/
def compositeImage (dest bottom top mask : Nat → Nat) : Nat → Nat :=
  fun j =>
    if j < FB_WIDTH * FB_HEIGHT * 3 then
      (bottom j * (255 - mask (j / 3)) + top j * mask (j / 3)) / 255
    else dest j

/-- C1: per channel, `compositeImage` computes
`(bottom * (255 - alpha) + top * alpha) / 255` with truncating division; with
an all-255 mask the result is exactly the top layer, and with an all-0 mask it
is exactly the bottom layer. -/
theorem compositeImage_correct (dest bottom top mask : Nat → Nat) (j : Nat)
    (hj : j < FB_WIDTH * FB_HEIGHT * 3) :
    compositeImage dest bottom top mask j =
      (bottom j * (255 - mask (j / 3)) + top j * mask (j / 3)) / 255 ∧
    ((∀ i, mask i = 255) → top j ≤ 255 →
      compositeImage dest bottom top mask j = top j) ∧
    ((∀ i, mask i = 0) → bottom j ≤ 255 →
      compositeImage dest bottom top mask j = bottom j) := by
  refine ⟨by simp [compositeImage, hj], ?_, ?_⟩
  · intro hmask htop
    simp only [compositeImage, if_pos hj, hmask]
    simp [Nat.mul_div_cancel]
  · intro hmask hbot
    simp only [compositeImage, if_pos hj, hmask]
    simp [Nat.mul_div_cancel]

/-- Witness for C1 at byte 100 with concrete layers. -/
theorem compositeImage_correct_witness :
    compositeImage (fun _ => 0) (fun _ => 10) (fun _ => 200) (fun _ => 255) 100 = 200 :=
  (compositeImage_correct (fun _ => 0) (fun _ => 10) (fun _ => 200) (fun _ => 255) 100
      (by decide)).2.1 (fun _ => rfl) (by decide)

/-! ### C2 — brush engine (`scratchAt`)

The mask is a function `Int → Nat` (the C index arithmetic is `int`).  The
soft brush's float computation `sqrtf`, `falloff = (d / r)^2`, and the
`(u8)(falloff * 255)` truncation are modelled in exact integer arithmetic:
`distance <= brushSize` becomes `dx^2 + dy^2 <= r^2`, and the truncated target
alpha becomes `(dx^2 + dy^2) * 255 / r^2` (floor division). -/

/-- Brush shapes (`BrushShape` enum). -/
inductive Brush where
  | circle
  | square
  | soft

/-- The soft brush's target alpha before blending:
`(u8)((distance / brushSize)^2 * 255)` in exact arithmetic. -/
def softAlphaValue (dx dy r : Int) : Nat :=
  ((dx * dx + dy * dy) * 255 / (r * r)).toNat

/-- The body of `scratchAt`'s double loop for one offset `(dx, dy)`: bounds
checks, the one-pixel negative-`y` clamp, the mask index computation, and the
shape-dependent write. -/
def applyBrushOffset (shape : Brush) (m : Int → Nat)
    (touchX touchY brushSize dx dy : Int) : Int → Nat :=
  let px := touchX + dx
  let py0 := touchY + dy
  if px < 0 ∨ 320 ≤ px ∨ 240 ≤ py0 then m
  else
    let py := if py0 < 0 then 0 else py0
    let maskIdx := px * 240 + (239 - py)
    if maskIdx < 0 ∨ (240 : Int) * 320 ≤ maskIdx then m
    else
      match shape with
      | Brush.circle =>
          if dx * dx + dy * dy ≤ brushSize * brushSize then upd m maskIdx 0 else m
      | Brush.square => upd m maskIdx 0
      | Brush.soft =>
          if dx * dx + dy * dy ≤ brushSize * brushSize then
            upd m maskIdx (min (m maskIdx) (softAlphaValue dx dy brushSize))
          else m

/-- Definition of `scratchAt` from the source: reject out-of-range centers, then apply the
brush at every offset of the `[-brushSize, brushSize]^2` bounding box, outer
loop on `dx`, inner loop on `dy`. -/
def scratchAt (shape : Brush) (m : Int → Nat) (touchX touchY brushSize : Int) :
    Int → Nat :=
  if touchX < 0 ∨ 320 ≤ touchX ∨ touchY < 0 ∨ 240 ≤ touchY then m
  else
    (prodList (intRange brushSize) (intRange brushSize)).foldl
      (fun g p => applyBrushOffset shape g touchX touchY brushSize p.1 p.2) m

theorem sq_le_range {a r : Int} (h : a * a ≤ r * r) (hr : 0 ≤ r) : -r ≤ a ∧ a ≤ r := by
  constructor
  · by_contra hc
    push_neg at hc
    nlinarith [mul_pos (show (0:Int) < -(a + r) by omega) (show (0:Int) < r - a by omega)]
  · by_contra hc
    push_neg at hc
    nlinarith [mul_pos (show (0:Int) < a + r by omega) (show (0:Int) < a - r by omega)]

/-- One `scratchAt` loop step with a circle brush either preserves cell `j`, or
all guards passed, the circle test passed, `j` is the step's write target, and
the step wrote `0` there. -/
theorem applyBrushOffset_circle_cases (m : Int → Nat) (tx ty r dx dy j : Int) :
    applyBrushOffset Brush.circle m tx ty r dx dy j = m j ∨
    (0 ≤ tx + dx ∧ tx + dx < 320 ∧ ty + dy < 240 ∧ dx * dx + dy * dy ≤ r * r ∧
     j = (tx + dx) * 240 + (239 - (if ty + dy < 0 then 0 else ty + dy)) ∧
     applyBrushOffset Brush.circle m tx ty r dx dy j = 0) := by
  by_cases hguard : tx + dx < 0 ∨ 320 ≤ tx + dx ∨ 240 ≤ ty + dy
  · left
    simp only [applyBrushOffset]
    rw [if_pos hguard]
  · by_cases hcond : dx * dx + dy * dy ≤ r * r
    · by_cases hj : j = (tx + dx) * 240 + (239 - (if ty + dy < 0 then 0 else ty + dy))
      · right
        refine ⟨by omega, by omega, by omega, hcond, hj, ?_⟩
        subst hj
        simp only [applyBrushOffset]
        rw [if_neg hguard]
        split_ifs with hclamp hbound
        · exfalso; omega
        · exact upd_self _ _ _
        · exfalso; omega
        · exact upd_self _ _ _
      · left
        simp only [applyBrushOffset]
        rw [if_neg hguard]
        split_ifs with hclamp hbound hc2 <;> try rfl
        · rw [if_pos hclamp] at hj
          exact upd_other _ _ _ _ hj
        · rw [if_neg hclamp] at hj
          exact upd_other _ _ _ _ hj
    · left
      simp only [applyBrushOffset]
      rw [if_neg hguard]
      split_ifs <;> rfl

/-- One `scratchAt` loop step with a square brush either preserves cell `j`,
or all guards passed, `j` is the step's write target, and the step wrote `0`. -/
theorem applyBrushOffset_square_cases (m : Int → Nat) (tx ty r dx dy j : Int) :
    applyBrushOffset Brush.square m tx ty r dx dy j = m j ∨
    (0 ≤ tx + dx ∧ tx + dx < 320 ∧ ty + dy < 240 ∧
     j = (tx + dx) * 240 + (239 - (if ty + dy < 0 then 0 else ty + dy)) ∧
     applyBrushOffset Brush.square m tx ty r dx dy j = 0) := by
  by_cases hguard : tx + dx < 0 ∨ 320 ≤ tx + dx ∨ 240 ≤ ty + dy
  · left
    simp only [applyBrushOffset]
    rw [if_pos hguard]
  · by_cases hj : j = (tx + dx) * 240 + (239 - (if ty + dy < 0 then 0 else ty + dy))
    · right
      refine ⟨by omega, by omega, by omega, hj, ?_⟩
      subst hj
      simp only [applyBrushOffset]
      rw [if_neg hguard]
      split_ifs with hclamp hbound
      · exfalso; omega
      · exact upd_self _ _ _
      · exfalso; omega
      · exact upd_self _ _ _
    · left
      simp only [applyBrushOffset]
      rw [if_neg hguard]
      split_ifs with hclamp hbound <;> try rfl
      · rw [if_pos hclamp] at hj
        exact upd_other _ _ _ _ hj
      · rw [if_neg hclamp] at hj
        exact upd_other _ _ _ _ hj

/-- One `scratchAt` loop step with a soft brush either preserves cell `j`, or
all guards passed, the distance test passed, `j` is the step's write target,
and the step wrote the minimum of the current alpha and the falloff value. -/
theorem applyBrushOffset_soft_cases (m : Int → Nat) (tx ty r dx dy j : Int) :
    applyBrushOffset Brush.soft m tx ty r dx dy j = m j ∨
    (0 ≤ tx + dx ∧ tx + dx < 320 ∧ ty + dy < 240 ∧ dx * dx + dy * dy ≤ r * r ∧
     j = (tx + dx) * 240 + (239 - (if ty + dy < 0 then 0 else ty + dy)) ∧
     applyBrushOffset Brush.soft m tx ty r dx dy j =
       min (m j) (softAlphaValue dx dy r)) := by
  by_cases hguard : tx + dx < 0 ∨ 320 ≤ tx + dx ∨ 240 ≤ ty + dy
  · left
    simp only [applyBrushOffset]
    rw [if_pos hguard]
  · by_cases hcond : dx * dx + dy * dy ≤ r * r
    · by_cases hj : j = (tx + dx) * 240 + (239 - (if ty + dy < 0 then 0 else ty + dy))
      · right
        refine ⟨by omega, by omega, by omega, hcond, hj, ?_⟩
        subst hj
        simp only [applyBrushOffset]
        rw [if_neg hguard]
        split_ifs with hclamp hbound
        · exfalso; omega
        · exact upd_self _ _ _
        · exfalso; omega
        · exact upd_self _ _ _
      · left
        simp only [applyBrushOffset]
        rw [if_neg hguard]
        split_ifs with hclamp hbound hc2 <;> try rfl
        · rw [if_pos hclamp] at hj
          exact upd_other _ _ _ _ hj
        · rw [if_neg hclamp] at hj
          exact upd_other _ _ _ _ hj
    · left
      simp only [applyBrushOffset]
      rw [if_neg hguard]
      split_ifs <;> rfl

/-- A soft-brush loop step never increases any mask cell. -/
theorem applyBrushOffset_soft_le (m : Int → Nat) (tx ty r dx dy j : Int) :
    applyBrushOffset Brush.soft m tx ty r dx dy j ≤ m j := by
  rcases applyBrushOffset_soft_cases m tx ty r dx dy j with hkeep | ⟨_, _, _, _, _, hval⟩
  · exact le_of_eq hkeep
  · rw [hval]
    exact min_le_left _ _

/-- The step of `scratchAt`'s loop writing the direct (unclamped) target cell:
with a circle brush and the circle test passing it writes `0` there. -/
theorem applyBrushOffset_circle_write (m : Int → Nat) (tx ty r dx dy j : Int)
    (h1 : 0 ≤ tx + dx) (h2 : tx + dx < 320) (h3 : 0 ≤ ty + dy) (h4 : ty + dy < 240)
    (hcond : dx * dx + dy * dy ≤ r * r)
    (hj : j = (tx + dx) * 240 + (239 - (ty + dy))) :
    applyBrushOffset Brush.circle m tx ty r dx dy j = 0 := by
  subst hj
  simp only [applyBrushOffset]
  split_ifs
  all_goals first
    | (exfalso; omega)
    | exact upd_self _ _ _

/-- Same as `applyBrushOffset_circle_write` for the square brush (no test). -/
theorem applyBrushOffset_square_write (m : Int → Nat) (tx ty r dx dy j : Int)
    (h1 : 0 ≤ tx + dx) (h2 : tx + dx < 320) (h3 : 0 ≤ ty + dy) (h4 : ty + dy < 240)
    (hj : j = (tx + dx) * 240 + (239 - (ty + dy))) :
    applyBrushOffset Brush.square m tx ty r dx dy j = 0 := by
  subst hj
  simp only [applyBrushOffset]
  split_ifs
  all_goals first
    | (exfalso; omega)
    | exact upd_self _ _ _

/-- Same as `applyBrushOffset_circle_write` for the soft brush: the cell gets
the minimum of its current alpha and the falloff value. -/
theorem applyBrushOffset_soft_write (m : Int → Nat) (tx ty r dx dy j : Int)
    (h1 : 0 ≤ tx + dx) (h2 : tx + dx < 320) (h3 : 0 ≤ ty + dy) (h4 : ty + dy < 240)
    (hcond : dx * dx + dy * dy ≤ r * r)
    (hj : j = (tx + dx) * 240 + (239 - (ty + dy))) :
    applyBrushOffset Brush.soft m tx ty r dx dy j =
      min (m j) (softAlphaValue dx dy r) := by
  subst hj
  simp only [applyBrushOffset]
  split_ifs
  all_goals first
    | (exfalso; omega)
    | exact upd_self _ _ _

/-- C2: for an in-range brush center and any radius `r ≥ 0`:
a soft-brush `scratchAt` never increases any mask cell, and each directly
written cell (rows `py ≥ 1` have a unique writing offset) gets the minimum of
the falloff value and its current alpha; a circle brush sets exactly the cells
with `dx^2 + dy^2 ≤ r^2` to `0` and leaves all other cells unchanged; a square
brush sets exactly the cells of the bounding box to `0` and leaves all other
cells unchanged. -/
theorem scratchAt_correct (m : Int → Nat) (tx ty r : Int)
    (htx0 : 0 ≤ tx) (htx1 : tx < 320) (hty0 : 0 ≤ ty) (hty1 : ty < 240)
    (hr : 0 ≤ r) :
    (∀ j : Int, scratchAt Brush.soft m tx ty r j ≤ m j) ∧
    (∀ px py : Int, 0 ≤ px → px < 320 → 1 ≤ py → py < 240 →
      scratchAt Brush.soft m tx ty r (px * 240 + (239 - py)) =
        if (px - tx) * (px - tx) + (py - ty) * (py - ty) ≤ r * r then
          min (m (px * 240 + (239 - py))) (softAlphaValue (px - tx) (py - ty) r)
        else m (px * 240 + (239 - py))) ∧
    (∀ px py : Int, 0 ≤ px → px < 320 → 0 ≤ py → py < 240 →
      scratchAt Brush.circle m tx ty r (px * 240 + (239 - py)) =
        if (px - tx) * (px - tx) + (py - ty) * (py - ty) ≤ r * r then 0
        else m (px * 240 + (239 - py))) ∧
    (∀ px py : Int, 0 ≤ px → px < 320 → 0 ≤ py → py < 240 →
      scratchAt Brush.square m tx ty r (px * 240 + (239 - py)) =
        if tx - r ≤ px ∧ px ≤ tx + r ∧ ty - r ≤ py ∧ py ≤ ty + r then 0
        else m (px * 240 + (239 - py))) := by
  have hguard : ¬(tx < 0 ∨ 320 ≤ tx ∨ ty < 0 ∨ 240 ≤ ty) := by omega
  refine ⟨?_, ?_, ?_, ?_⟩
  · intro j
    simp only [scratchAt]
    rw [if_neg hguard]
    exact foldl_le_point _ j _ m
      (fun p _ g => applyBrushOffset_soft_le g tx ty r p.1 p.2 j)
  · intro px py hpx0 hpx1 hpy1 hpy2
    simp only [scratchAt]
    rw [if_neg hguard]
    by_cases hcirc : (px - tx) * (px - tx) + (py - ty) * (py - ty) ≤ r * r
    · rw [if_pos hcirc]
      have hdxsq : (px - tx) * (px - tx) ≤ r * r := by
        nlinarith [mul_self_nonneg (py - ty)]
      have hdysq : (py - ty) * (py - ty) ≤ r * r := by
        nlinarith [mul_self_nonneg (px - tx)]
      obtain ⟨hdx1, hdx2⟩ := sq_le_range hdxsq hr
      obtain ⟨hdy1, hdy2⟩ := sq_le_range hdysq hr
      have hother : ∀ q ∈ prodList (intRange r) (intRange r),
          q ≠ ((px - tx, py - ty) : Int × Int) → ∀ g : Int → Nat,
          applyBrushOffset Brush.soft g tx ty r q.1 q.2 (px * 240 + (239 - py)) =
            g (px * 240 + (239 - py)) := by
        rintro ⟨qdx, qdy⟩ _ hqne g
        rcases applyBrushOffset_soft_cases g tx ty r qdx qdy (px * 240 + (239 - py)) with
          hkeep | ⟨hg1, hg2, hg3, _, hj, _⟩
        · exact hkeep
        · exfalso
          by_cases hcl : ty + qdy < 0
          · rw [if_pos hcl] at hj
            omega
          · rw [if_neg hcl] at hj
            refine hqne ?_
            have h1 : qdx = px - tx := by omega
            have h2 : qdy = py - ty := by omega
            rw [h1, h2]
      have hdep : ∀ g g' : Int → Nat,
          g (px * 240 + (239 - py)) = g' (px * 240 + (239 - py)) →
          applyBrushOffset Brush.soft g tx ty r (px - tx) (py - ty) (px * 240 + (239 - py)) =
          applyBrushOffset Brush.soft g' tx ty r (px - tx) (py - ty) (px * 240 + (239 - py)) := by
        intro g g' hgg
        rw [applyBrushOffset_soft_write g tx ty r (px - tx) (py - ty)
              (px * 240 + (239 - py)) (by omega) (by omega) (by omega) (by omega)
              hcirc (by omega),
            applyBrushOffset_soft_write g' tx ty r (px - tx) (py - ty)
              (px * 240 + (239 - py)) (by omega) (by omega) (by omega) (by omega)
              hcirc (by omega), hgg]
      rw [foldl_single_writer (fun g p => applyBrushOffset Brush.soft g tx ty r p.1 p.2)
            (px * 240 + (239 - py)) _ m
            (nodup_prodList (nodup_intRange r) (nodup_intRange r)) (px - tx, py - ty)
            (mem_prodList.mpr ⟨mem_intRange.mpr ⟨by omega, by omega⟩,
                               mem_intRange.mpr ⟨by omega, by omega⟩⟩)
            hother hdep]
      exact applyBrushOffset_soft_write m tx ty r (px - tx) (py - ty)
        (px * 240 + (239 - py)) (by omega) (by omega) (by omega) (by omega)
        hcirc (by omega)
    · rw [if_neg hcirc]
      refine foldl_preserve_point _ (px * 240 + (239 - py)) _ m ?_
      rintro ⟨qdx, qdy⟩ _ g
      rcases applyBrushOffset_soft_cases g tx ty r qdx qdy (px * 240 + (239 - py)) with
        hkeep | ⟨hg1, hg2, hg3, hqcond, hj, _⟩
      · exact hkeep
      · exfalso
        by_cases hcl : ty + qdy < 0
        · rw [if_pos hcl] at hj
          omega
        · rw [if_neg hcl] at hj
          apply hcirc
          have h1 : qdx = px - tx := by omega
          have h2 : qdy = py - ty := by omega
          rw [h1, h2] at hqcond
          exact hqcond
  · intro px py hpx0 hpx1 hpy0 hpy1
    simp only [scratchAt]
    rw [if_neg hguard]
    by_cases hcirc : (px - tx) * (px - tx) + (py - ty) * (py - ty) ≤ r * r
    · rw [if_pos hcirc]
      have hdxsq : (px - tx) * (px - tx) ≤ r * r := by
        nlinarith [mul_self_nonneg (py - ty)]
      have hdysq : (py - ty) * (py - ty) ≤ r * r := by
        nlinarith [mul_self_nonneg (px - tx)]
      obtain ⟨hdx1, hdx2⟩ := sq_le_range hdxsq hr
      obtain ⟨hdy1, hdy2⟩ := sq_le_range hdysq hr
      refine foldl_writes_zero _ (px * 240 + (239 - py)) _ m ?_ (px - tx, py - ty) ?_ ?_
      · intro q _ g
        rcases applyBrushOffset_circle_cases g tx ty r q.1 q.2 (px * 240 + (239 - py)) with
          hkeep | ⟨_, _, _, _, _, hzero⟩
        · exact Or.inl hkeep
        · exact Or.inr hzero
      · exact mem_prodList.mpr ⟨mem_intRange.mpr ⟨by omega, by omega⟩,
          mem_intRange.mpr ⟨by omega, by omega⟩⟩
      · intro g
        exact applyBrushOffset_circle_write g tx ty r (px - tx) (py - ty)
          (px * 240 + (239 - py)) (by omega) (by omega) (by omega) (by omega)
          hcirc (by omega)
    · rw [if_neg hcirc]
      refine foldl_preserve_point _ (px * 240 + (239 - py)) _ m ?_
      rintro ⟨qdx, qdy⟩ _ g
      rcases applyBrushOffset_circle_cases g tx ty r qdx qdy (px * 240 + (239 - py)) with
        hkeep | ⟨hg1, hg2, hg3, hqcond, hj, _⟩
      · exact hkeep
      · exfalso
        apply hcirc
        by_cases hcl : ty + qdy < 0
        · rw [if_pos hcl] at hj
          have hq1 : qdx = px - tx := by omega
          have hq2 : py = 0 := by omega
          have hy2 : ty ≤ -qdy := by omega
          have hyy : ty * ty ≤ qdy * qdy := by nlinarith
          rw [hq1] at hqcond
          rw [hq2]
          nlinarith
        · rw [if_neg hcl] at hj
          have hq1 : qdx = px - tx := by omega
          have hq2 : qdy = py - ty := by omega
          rw [hq1, hq2] at hqcond
          exact hqcond
  · intro px py hpx0 hpx1 hpy0 hpy1
    simp only [scratchAt]
    rw [if_neg hguard]
    by_cases hbox : tx - r ≤ px ∧ px ≤ tx + r ∧ ty - r ≤ py ∧ py ≤ ty + r
    · rw [if_pos hbox]
      obtain ⟨hb1, hb2, hb3, hb4⟩ := hbox
      refine foldl_writes_zero _ (px * 240 + (239 - py)) _ m ?_ (px - tx, py - ty) ?_ ?_
      · intro q _ g
        rcases applyBrushOffset_square_cases g tx ty r q.1 q.2 (px * 240 + (239 - py)) with
          hkeep | ⟨_, _, _, _, hzero⟩
        · exact Or.inl hkeep
        · exact Or.inr hzero
      · exact mem_prodList.mpr ⟨mem_intRange.mpr ⟨by omega, by omega⟩,
          mem_intRange.mpr ⟨by omega, by omega⟩⟩
      · intro g
        exact applyBrushOffset_square_write g tx ty r (px - tx) (py - ty)
          (px * 240 + (239 - py)) (by omega) (by omega) (by omega) (by omega) (by omega)
    · rw [if_neg hbox]
      refine foldl_preserve_point _ (px * 240 + (239 - py)) _ m ?_
      rintro ⟨qdx, qdy⟩ hq g
      have hqmem := mem_prodList.mp hq
      have hqr1 := mem_intRange.mp hqmem.1
      have hqr2 := mem_intRange.mp hqmem.2
      rcases applyBrushOffset_square_cases g tx ty r qdx qdy (px * 240 + (239 - py)) with
        hkeep | ⟨hg1, hg2, hg3, hj, _⟩
      · exact hkeep
      · exfalso
        apply hbox
        by_cases hcl : ty + qdy < 0
        · rw [if_pos hcl] at hj
          exact ⟨by omega, by omega, by omega, by omega⟩
        · rw [if_neg hcl] at hj
          exact ⟨by omega, by omega, by omega, by omega⟩

/-- Witness for C2: circle brush of radius 2 at center (100, 100) erases the
center cell to 0 on an all-255 mask. -/
theorem scratchAt_correct_witness :
    scratchAt Brush.circle (fun _ => 255) 100 100 2 (100 * 240 + (239 - 100)) = 0 := by
  have h3 := (scratchAt_correct (fun _ => 255) 100 100 2 (by decide) (by decide)
      (by decide) (by decide) (by decide)).2.2.1 100 100
      (by decide) (by decide) (by decide) (by decide)
  simpa using h3

/-! ### Application state and the history system (`pushUndo` / `undo` / `redo`)

The globals of main.c are collected into one record.  Stacks are index
functions with explicit `int` tops, exactly as in the source (`undoTop` points
to the next free slot).  The `float depthOffset` is modelled as a rational. -/

/-- The mutable globals of main.c (plus the `brushSize` loop local). -/
structure AppState where
  baseImage : Nat → Nat
  rotatedImage : Nat → Nat
  scratchMask : Nat → Nat
  undoStack : Int → Nat → Nat
  redoStack : Int → Nat → Nat
  undoTop : Int
  redoTop : Int
  currentMode : Nat
  currentColorIndex : Nat
  currentBrushShape : Nat
  brushSize : Int
  depthOffset : Rat

/-- Definition of `pushUndo` from the source.  When the stack is full (`undoTop >= 20`) the
C code first shifts entries `1..19` down to `0..18` and sets `undoTop = 19`,
then stores the mask at `undoTop` and increments it; the two steps are fused
here into a single record update with the same result.  Every call clears the
redo stack (`redoTop = 0`). -/
def pushUndo (s : AppState) : AppState :=
  if 20 ≤ s.undoTop then
    { s with
      undoStack := fun i =>
        if i = 19 then s.scratchMask
        else if 0 ≤ i ∧ i < 19 then s.undoStack (i + 1)
        else s.undoStack i,
      undoTop := 20,
      redoTop := 0 }
  else
    { s with
      undoStack := fun i => if i = s.undoTop then s.scratchMask else s.undoStack i,
      undoTop := s.undoTop + 1,
      redoTop := 0 }

/-- Definition of `undo` from the source: no-op unless `undoTop > 0`; otherwise saves the
current mask to the redo stack and pops the undo stack into the mask. -/
def undo (s : AppState) : AppState :=
  if 0 < s.undoTop then
    { s with
      redoStack := fun i => if i = s.redoTop then s.scratchMask else s.redoStack i,
      redoTop := s.redoTop + 1,
      scratchMask := s.undoStack (s.undoTop - 1),
      undoTop := s.undoTop - 1 }
  else s

/-- Definition of `redo` from the source: no-op unless `redoTop > 0`; otherwise saves the
current mask to the undo stack and pops the redo stack into the mask. -/
def redo (s : AppState) : AppState :=
  if 0 < s.redoTop then
    { s with
      undoStack := fun i => if i = s.undoTop then s.scratchMask else s.undoStack i,
      undoTop := s.undoTop + 1,
      scratchMask := s.redoStack (s.redoTop - 1),
      redoTop := s.redoTop - 1 }
  else s

/-- An arbitrary edit of the scratch mask (brush strokes, clears, ...). -/
def setMask (mk : Nat → Nat) (s : AppState) : AppState :=
  { s with scratchMask := mk }

/-- The state after the initialisation in `main` (patterns generated, mask
memset to 255, both tops zero). -/
def initState : AppState where
  baseImage := fun _ => 0
  rotatedImage := fun _ => 0
  scratchMask := fun i => if i < FB_WIDTH * FB_HEIGHT then 255 else 0
  undoStack := fun _ _ => 0
  redoStack := fun _ _ => 0
  undoTop := 0
  redoTop := 0
  currentMode := 1
  currentColorIndex := 0
  currentBrushShape := 0
  brushSize := 5
  depthOffset := 3

/-- C3: after `pushUndo` and an arbitrary mask edit, `undo` restores the
pre-edit mask exactly, and `redo` right after that `undo` restores the edited
mask exactly; `undo` is a no-op on an empty undo stack and `redo` is a no-op
on an empty redo stack. -/
theorem undo_redo_roundtrip (s : AppState) (m2 : Nat → Nat) (h : 0 ≤ s.undoTop) :
    (undo (setMask m2 (pushUndo s))).scratchMask = s.scratchMask ∧
    (redo (undo (setMask m2 (pushUndo s)))).scratchMask = m2 ∧
    (∀ t : AppState, t.undoTop = 0 → undo t = t) ∧
    (∀ t : AppState, t.redoTop = 0 → redo t = t) := by
  refine ⟨?_, ?_, ?_, ?_⟩
  · by_cases h20 : 20 ≤ s.undoTop
    · simp [pushUndo, undo, setMask, h20]
    · simp [pushUndo, undo, setMask, h20, show (0:Int) < s.undoTop + 1 by omega]
  · by_cases h20 : 20 ≤ s.undoTop
    · simp [pushUndo, undo, redo, setMask, h20]
    · simp [pushUndo, undo, redo, setMask, h20, show (0:Int) < s.undoTop + 1 by omega]
  · intro t ht
    simp [undo, ht]
  · intro t ht
    simp [redo, ht]

/-- Witness for C3 from the initial state with a concrete edit. -/
theorem undo_redo_roundtrip_witness :
    (undo (setMask (fun _ => 7) (pushUndo initState))).scratchMask =
      initState.scratchMask :=
  (undo_redo_roundtrip initState (fun _ => 7) (by decide)).1

theorem getD_append_left {α : Type} (l1 l2 : List α) (n : Nat) (d : α)
    (h : n < l1.length) : (l1 ++ l2).getD n d = l1.getD n d := by
  simp [List.getD_eq_getElem?_getD, List.getElem?_append_left h]

theorem getD_append_right {α : Type} (l1 l2 : List α) (n : Nat) (d : α)
    (h : l1.length ≤ n) : (l1 ++ l2).getD n d = l2.getD (n - l1.length) d := by
  simp [List.getD_eq_getElem?_getD, List.getElem?_append_right h]

/-- A sequence of snapshots: for each mask in the list, set it as the current
mask and call `pushUndo` (what a user stroke between snapshots amounts to for
the undo stack). -/
def pushSeq (l : List (Nat → Nat)) (s : AppState) : AppState :=
  l.foldl (fun st mk => pushUndo (setMask mk st)) s

theorem pushSeq_append (l : List (Nat → Nat)) (mk : Nat → Nat) (s : AppState) :
    pushSeq (l ++ [mk]) s = pushUndo (setMask mk (pushSeq l s)) := by
  simp [pushSeq, List.foldl_append]

theorem setMask_undoTop (mk : Nat → Nat) (s : AppState) :
    (setMask mk s).undoTop = s.undoTop := rfl

theorem setMask_undoStack (mk : Nat → Nat) (s : AppState) :
    (setMask mk s).undoStack = s.undoStack := rfl

theorem setMask_scratchMask (mk : Nat → Nat) (s : AppState) :
    (setMask mk s).scratchMask = mk := rfl

theorem pushUndo_undoTop (s : AppState) :
    (pushUndo s).undoTop = if 20 ≤ s.undoTop then 20 else s.undoTop + 1 := by
  simp only [pushUndo]
  split_ifs <;> rfl

theorem pushUndo_redoTop (s : AppState) : (pushUndo s).redoTop = 0 := by
  simp only [pushUndo]
  split_ifs <;> rfl

theorem pushUndo_undoStack (s : AppState) (i : Int) :
    (pushUndo s).undoStack i =
      if 20 ≤ s.undoTop then
        (if i = 19 then s.scratchMask
         else if 0 ≤ i ∧ i < 19 then s.undoStack (i + 1) else s.undoStack i)
      else (if i = s.undoTop then s.scratchMask else s.undoStack i) := by
  simp only [pushUndo]
  by_cases h1 : 20 ≤ s.undoTop
  · rw [if_pos h1, if_pos h1]
  · rw [if_neg h1, if_neg h1]

/-- After pushing the masks of `l` in order starting from the initial state,
the undo stack holds exactly the `min |l| 20` most recent snapshots in order. -/
theorem pushSeq_spec (l : List (Nat → Nat)) :
    (pushSeq l initState).undoTop = ((min l.length 20 : Nat) : Int) ∧
    ∀ i : Nat, i < min l.length 20 →
      (pushSeq l initState).undoStack (i : Int) =
        l.getD (l.length - min l.length 20 + i) (fun _ => 0) := by
  induction l using List.reverseRecOn with
  | nil =>
    refine ⟨rfl, ?_⟩
    intro i hi
    simp at hi
  | append_singleton l mk ih =>
    obtain ⟨ihTop, ihStack⟩ := ih
    rw [pushSeq_append]
    have hlen : (l ++ [mk]).length = l.length + 1 := by simp
    by_cases h20 : l.length < 20
    · have hne : ¬(20 ≤ (setMask mk (pushSeq l initState)).undoTop) := by
        rw [setMask_undoTop, ihTop]
        omega
      constructor
      · rw [pushUndo_undoTop, if_neg hne, setMask_undoTop, ihTop, hlen]
        omega
      · intro i hi
        rw [hlen] at hi
        rw [pushUndo_undoStack, if_neg hne, setMask_undoTop, setMask_undoStack,
            setMask_scratchMask, ihTop]
        by_cases hil : i = l.length
        · rw [if_pos (by omega)]
          have hidx : (l ++ [mk]).length - min (l ++ [mk]).length 20 + i = l.length := by
            rw [hlen]
            omega
          rw [hidx, getD_append_right l [mk] _ _ (by omega)]
          rw [show l.length - l.length = 0 from by omega]
          rfl
        · rw [if_neg (by omega)]
          have hidx : (l ++ [mk]).length - min (l ++ [mk]).length 20 + i = i := by
            rw [hlen]
            omega
          rw [hidx, getD_append_left l [mk] _ _ (by omega), ihStack i (by omega)]
          congr 1
          omega
    · have hye : 20 ≤ (setMask mk (pushSeq l initState)).undoTop := by
        rw [setMask_undoTop, ihTop]
        omega
      constructor
      · rw [pushUndo_undoTop, if_pos hye, hlen]
        omega
      · intro i hi
        rw [hlen] at hi
        rw [pushUndo_undoStack, if_pos hye, setMask_undoStack, setMask_scratchMask]
        by_cases hil : i = 19
        · rw [if_pos (by omega)]
          have hidx : (l ++ [mk]).length - min (l ++ [mk]).length 20 + i = l.length := by
            rw [hlen]
            omega
          rw [hidx, getD_append_right l [mk] _ _ (by omega)]
          rw [show l.length - l.length = 0 from by omega]
          rfl
        · rw [if_neg (by omega), if_pos (by omega)]
          rw [show ((i : Int) + 1) = ((i + 1 : Nat) : Int) from by push_cast; ring]
          rw [ihStack (i + 1) (by omega)]
          have hidx : (l ++ [mk]).length - min (l ++ [mk]).length 20 + i
              = l.length - min l.length 20 + (i + 1) := by
            rw [hlen]
            omega
          rw [hidx, getD_append_left l [mk] _ _ (by omega)]

theorem setMask_redoTop (mk : Nat → Nat) (s : AppState) :
    (setMask mk s).redoTop = s.redoTop := rfl

theorem undo_undoTop (s : AppState) :
    (undo s).undoTop = if 0 < s.undoTop then s.undoTop - 1 else s.undoTop := by
  simp only [undo]
  split_ifs <;> rfl

theorem undo_redoTop (s : AppState) :
    (undo s).redoTop = if 0 < s.undoTop then s.redoTop + 1 else s.redoTop := by
  simp only [undo]
  split_ifs <;> rfl

theorem redo_undoTop (s : AppState) :
    (redo s).undoTop = if 0 < s.redoTop then s.undoTop + 1 else s.undoTop := by
  simp only [redo]
  split_ifs <;> rfl

theorem redo_redoTop (s : AppState) :
    (redo s).redoTop = if 0 < s.redoTop then s.redoTop - 1 else s.redoTop := by
  simp only [redo]
  split_ifs <;> rfl

/-- C4: the undo stack never exceeds 20 snapshots; `pushUndo` always clears
the redo stack; from the initial state a sequence of snapshots retains exactly
the `min n 20` most recent ones in order; and a push onto a full stack shifts
entries down, discarding exactly the oldest (index 0) and storing the new
snapshot at index 19. -/
theorem pushUndo_bounded_fifo (l : List (Nat → Nat)) (s : AppState)
    (h0 : 0 ≤ s.undoTop) (h20 : s.undoTop ≤ 20) :
    (pushUndo s).redoTop = 0 ∧
    (pushUndo s).undoTop ≤ 20 ∧
    (pushSeq l initState).undoTop = ((min l.length 20 : Nat) : Int) ∧
    (∀ i : Nat, i < min l.length 20 →
      (pushSeq l initState).undoStack (i : Int) =
        l.getD (l.length - min l.length 20 + i) (fun _ => 0)) ∧
    (s.undoTop = 20 →
      (pushUndo s).undoTop = 20 ∧
      (∀ i : Int, 0 ≤ i → i < 19 → (pushUndo s).undoStack i = s.undoStack (i + 1)) ∧
      (pushUndo s).undoStack 19 = s.scratchMask) := by
  obtain ⟨hseqTop, hseqStack⟩ := pushSeq_spec l
  refine ⟨pushUndo_redoTop s, ?_, hseqTop, hseqStack, ?_⟩
  · rw [pushUndo_undoTop]
    split_ifs <;> omega
  · intro hfull
    have hge : 20 ≤ s.undoTop := by omega
    refine ⟨?_, ?_, ?_⟩
    · rw [pushUndo_undoTop, if_pos hge]
    · intro i hi0 hi19
      rw [pushUndo_undoStack, if_pos hge, if_neg (by omega), if_pos (by omega)]
    · rw [pushUndo_undoStack, if_pos hge, if_pos rfl]

/-- Witness for C4 at the initial state with a two-snapshot sequence. -/
theorem pushUndo_bounded_fifo_witness :
    (pushUndo initState).redoTop = 0 ∧ (pushUndo initState).undoTop ≤ 20 := by
  have h := pushUndo_bounded_fifo [] initState (by decide) (by decide)
  exact ⟨h.1, h.2.1⟩

/-- C10's reachable states: start with both tops at zero, then any sequence of
`pushUndo`, `undo`, `redo` (and mask edits, which do not touch the tops). -/
inductive Reachable : AppState → Prop where
  | init : ∀ s : AppState, s.undoTop = 0 → s.redoTop = 0 → Reachable s
  | push : ∀ s : AppState, Reachable s → Reachable (pushUndo s)
  | histUndo : ∀ s : AppState, Reachable s → Reachable (undo s)
  | histRedo : ∀ s : AppState, Reachable s → Reachable (redo s)
  | edit : ∀ (mk : Nat → Nat) (s : AppState), Reachable s → Reachable (setMask mk s)

/-- C10: in every reachable state both stack tops are non-negative and their
sum is at most 20 (`MAX_HISTORY`); consequently the unguarded store at
`redoTop` inside `undo` (it runs only when `undoTop > 0`) and the unguarded
store at `undoTop` inside `redo` (it runs only when `redoTop > 0`) stay within
the bounds `[0, 20)` of the declared stack arrays. -/
theorem history_tops_invariant (s : AppState) (h : Reachable s) :
    0 ≤ s.undoTop ∧ 0 ≤ s.redoTop ∧ s.undoTop + s.redoTop ≤ 20 ∧
    (0 < s.undoTop → s.redoTop < 20) ∧ (0 < s.redoTop → s.undoTop < 20) := by
  induction h with
  | init s h1 h2 => omega
  | push s hs ih =>
    have h1 := pushUndo_undoTop s
    have h2 := pushUndo_redoTop s
    by_cases hc : 20 ≤ s.undoTop
    · rw [if_pos hc] at h1
      omega
    · rw [if_neg hc] at h1
      omega
  | histUndo s hs ih =>
    have h1 := undo_undoTop s
    have h2 := undo_redoTop s
    by_cases hc : 0 < s.undoTop
    · rw [if_pos hc] at h1 h2
      omega
    · rw [if_neg hc] at h1 h2
      omega
  | histRedo s hs ih =>
    have h1 := redo_undoTop s
    have h2 := redo_redoTop s
    by_cases hc : 0 < s.redoTop
    · rw [if_pos hc] at h1 h2
      omega
    · rw [if_neg hc] at h1 h2
      omega
  | edit mk s hs ih =>
    have h1 := setMask_undoTop mk s
    have h2 := setMask_redoTop mk s
    omega

/-- Witness for C10 at the initial state. -/
theorem history_tops_invariant_witness :
    0 ≤ initState.undoTop ∧ 0 ≤ initState.redoTop ∧
    initState.undoTop + initState.redoTop ≤ 20 ∧
    (0 < initState.undoTop → initState.redoTop < 20) ∧
    (0 < initState.redoTop → initState.undoTop < 20) :=
  history_tops_invariant initState (Reachable.init initState rfl rfl)

/-! ### ImageCodec — `saveScreenshot` and `loadDrawing`

A file is a list of bytes.  `saveScreenshot` emits the 54-byte BMP header and
then the pixel rows bottom-to-top (outer loop `y = 239 .. 0`, inner loop
`x = 0 .. 319`, three bytes per pixel read from framebuffer index
`(x*240 + (239-y))*3`).  `loadDrawing` models the failed `fopen` as a `none`
argument, checks the magic and the 320x240 dimensions, and on success copies
the decoded pixels into both layers, resets the mask to 255 and clears both
history tops. -/

/-- The 54 header bytes written by `saveScreenshot` (magic "BM", little-endian
file size 230454, data offset 54, info-header size 40, width 320, height 240,
1 plane, 24 bits per pixel, remaining fields zero). -/
def bmpHeader : List Nat :=
  [66, 77,
   54, 132, 3, 0,
   0, 0, 0, 0,
   54, 0, 0, 0,
   40, 0, 0, 0,
   64, 1, 0, 0,
   240, 0, 0, 0,
   1, 0,
   24, 0,
   0, 0, 0, 0,
   0, 0, 0, 0,
   0, 0, 0, 0,
   0, 0, 0, 0,
   0, 0, 0, 0,
   0, 0, 0, 0]

theorem bmpHeader_length : bmpHeader.length = 54 := rfl

/-- One saved row: the 3 BGR bytes of each pixel of row `y`, left to right. -/
def bmpRow (fb : Nat → Nat) (y : Nat) : List Nat :=
  (List.range 320).flatMap (fun x =>
    [fb ((x * 240 + (239 - y)) * 3),
     fb ((x * 240 + (239 - y)) * 3 + 1),
     fb ((x * 240 + (239 - y)) * 3 + 2)])

/-- The saved pixel rows, from `y = 239` down to `y = 0`. -/
def bmpPixelData (fb : Nat → Nat) : List Nat :=
  (List.range 240).flatMap (fun k => bmpRow fb (239 - k))

/-- Definition of `saveScreenshot` from the source (the timestamped filename and the failed
`fopen` path do not affect the emitted bytes). -/
def saveScreenshot (fb : Nat → Nat) : List Nat :=
  bmpHeader ++ bmpPixelData fb

/-- A little-endian 32-bit read at byte offset `off`, as `fread(&w, 4, 1, f)`
does on the BMP header. -/
def le32 (file : List Nat) (off : Nat) : Nat :=
  file.getD off 0 + file.getD (off + 1) 0 * 256 +
    file.getD (off + 2) 0 * 65536 + file.getD (off + 3) 0 * 16777216

/-- Definition of `readBMPHeader` from the source: check the "BM" magic, then read width
and height at offsets 18 and 22. -/
def readBMPHeader (file : List Nat) : Option (Nat × Nat) :=
  if file.getD 0 0 = 66 ∧ file.getD 1 0 = 77 then
    some (le32 file 18, le32 file 22)
  else none

/-- The pixel-copy loop of `loadDrawing` on one destination buffer: for every
`(y, x)` copy the three bytes at BMP index `((239-y)*320 + x)*3` to
framebuffer index `(x*240 + (239-y))*3`. -/
def loadCopy (pixelData : Nat → Nat) (buf : Nat → Nat) : Nat → Nat :=
  (prodList (List.range 240) (List.range 320)).foldl
    (fun b p =>
      upd (upd (upd b
            ((p.2 * 240 + (239 - p.1)) * 3)
            (pixelData (((239 - p.1) * 320 + p.2) * 3)))
          ((p.2 * 240 + (239 - p.1)) * 3 + 1)
          (pixelData (((239 - p.1) * 320 + p.2) * 3 + 1)))
        ((p.2 * 240 + (239 - p.1)) * 3 + 2)
        (pixelData (((239 - p.1) * 320 + p.2) * 3 + 2)))
    buf

/-- Definition of `loadDrawing` from the source.  `none` stands for a file that could not be
opened.  On any failure the state is returned untouched; on success the
decoded pixels go into both layers, the mask is reset to 255 and both history
tops are cleared. -/
def loadDrawing (fileOpt : Option (List Nat)) (s : AppState) : Bool × AppState :=
  match fileOpt with
  | none => (false, s)
  | some file =>
    match readBMPHeader file with
    | none => (false, s)
    | some (w, h) =>
      if w ≠ 320 ∨ h ≠ 240 then (false, s)
      else
        let pixelData : Nat → Nat := fun i => file.getD (54 + i) 0
        (true,
          { s with
            baseImage := loadCopy pixelData s.baseImage,
            rotatedImage := loadCopy pixelData s.rotatedImage,
            scratchMask := fun i => if i < FB_WIDTH * FB_HEIGHT then 255 else s.scratchMask i,
            undoTop := 0,
            redoTop := 0 })

theorem flatten_blocks_length (L : Nat) :
    ∀ blocks : List (List Nat), (∀ b ∈ blocks, b.length = L) →
      blocks.flatten.length = blocks.length * L := by
  intro blocks
  induction blocks with
  | nil => intro _; simp
  | cons b bs ih =>
    intro hL
    have hb := hL b (by simp)
    simp only [List.flatten_cons, List.length_append, List.length_cons]
    rw [hb, ih (fun bb hbb => hL bb (by simp [hbb]))]
    ring

theorem flatten_blocks_getD (L : Nat) :
    ∀ (blocks : List (List Nat)) (k i : Nat),
      (∀ b ∈ blocks, b.length = L) → k < blocks.length → i < L →
      blocks.flatten.getD (k * L + i) 0 = (blocks.getD k []).getD i 0 := by
  intro blocks
  induction blocks with
  | nil =>
    intro k i _ hk _
    simp at hk
  | cons b bs ih =>
    intro k i hL hk hi
    have hb : b.length = L := hL b (by simp)
    cases k with
    | zero =>
      simp only [List.flatten_cons, Nat.zero_mul, Nat.zero_add]
      rw [getD_append_left _ _ _ _ (by rw [hb]; exact hi)]
      rfl
    | succ k' =>
      simp only [List.flatten_cons]
      rw [show (k' + 1) * L + i = L + (k' * L + i) from by ring]
      rw [getD_append_right _ _ _ _ (by rw [hb]; exact Nat.le_add_right L _)]
      rw [hb, Nat.add_sub_cancel_left]
      rw [ih k' i (fun bb hbb => hL bb (by simp [hbb]))
        (by simp only [List.length_cons] at hk; omega) hi]
      rfl

theorem getD_map_range {A : Type} (n x : Nat) (g : Nat → A) (d : A) (hx : x < n) :
    ((List.range n).map g).getD x d = g x := by
  rw [List.getD_eq_getElem?_getD, List.getElem?_map, List.getElem?_range hx]
  rfl

theorem bmpRow_getD (fb : Nat → Nat) (x y c : Nat) (hx : x < 320) (hc : c < 3) :
    (bmpRow fb y).getD (x * 3 + c) 0 = fb ((x * 240 + (239 - y)) * 3 + c) := by
  rw [bmpRow, List.flatMap_def]
  rw [flatten_blocks_getD 3 _ x c (by
    intro b hb
    rcases List.mem_map.mp hb with ⟨x', _, rfl⟩
    rfl) (by simpa using hx) hc]
  rw [getD_map_range _ _ _ _ hx]
  interval_cases c <;> rfl

theorem bmpPixelData_getD (fb : Nat → Nat) (x y c : Nat)
    (hx : x < 320) (hy : y < 240) (hc : c < 3) :
    (bmpPixelData fb).getD (((239 - y) * 320 + x) * 3 + c) 0 =
      fb ((x * 240 + (239 - y)) * 3 + c) := by
  rw [bmpPixelData, List.flatMap_def]
  rw [show ((239 - y) * 320 + x) * 3 + c = (239 - y) * 960 + (x * 3 + c) from by ring]
  rw [flatten_blocks_getD 960 _ (239 - y) (x * 3 + c) (by
    intro b hb
    rcases List.mem_map.mp hb with ⟨k', _, rfl⟩
    rw [bmpRow, List.flatMap_def]
    rw [flatten_blocks_length 3]
    · simp
    · intro bb hbb
      rcases List.mem_map.mp hbb with ⟨x', _, rfl⟩
      rfl) (by simp; omega) (by omega)]
  rw [getD_map_range _ _ _ _ (by omega)]
  rw [show 239 - (239 - y) = y from by omega]
  exact bmpRow_getD fb x y c hx hc

theorem loadCopy_getD (pixelData old : Nat → Nat) (x y c : Nat)
    (hx : x < 320) (hy : y < 240) (hc : c < 3) :
    loadCopy pixelData old ((x * 240 + (239 - y)) * 3 + c) =
      pixelData (((239 - y) * 320 + x) * 3 + c) := by
  have hstep : ∀ g : Nat → Nat,
      upd (upd (upd g
            ((x * 240 + (239 - y)) * 3) (pixelData (((239 - y) * 320 + x) * 3)))
          ((x * 240 + (239 - y)) * 3 + 1) (pixelData (((239 - y) * 320 + x) * 3 + 1)))
        ((x * 240 + (239 - y)) * 3 + 2) (pixelData (((239 - y) * 320 + x) * 3 + 2))
        ((x * 240 + (239 - y)) * 3 + c) =
      pixelData (((239 - y) * 320 + x) * 3 + c) := by
    intro g
    interval_cases c
    · rw [upd_other _ _ _ _ (by omega), upd_other _ _ _ _ (by omega)]
      exact upd_self _ _ _
    · rw [upd_other _ _ _ _ (by omega)]
      exact upd_self _ _ _
    · exact upd_self _ _ _
  simp only [loadCopy]
  refine (foldl_single_writer _ ((x * 240 + (239 - y)) * 3 + c) _ old
      (nodup_prodList (List.nodup_range 240) (List.nodup_range 320)) (y, x)
      (mem_prodList.mpr ⟨List.mem_range.mpr hy, List.mem_range.mpr hx⟩)
      ?_ (fun g g' _ => (hstep g).trans (hstep g').symm)).trans (hstep old)
  rintro ⟨y', x'⟩ hq hqne g
  have hqmem := mem_prodList.mp hq
  have hy' : y' < 240 := List.mem_range.mp hqmem.1
  have hx' : x' < 320 := List.mem_range.mp hqmem.2
  have hne : ¬(y' = y ∧ x' = x) := by
    rintro ⟨rfl, rfl⟩
    exact hqne rfl
  dsimp only
  rw [upd_other _ _ _ _ (by omega), upd_other _ _ _ _ (by omega),
    upd_other _ _ _ _ (by omega)]

theorem loadDrawing_success (file : List Nat) (s : AppState)
    (h : readBMPHeader file = some (320, 240)) :
    loadDrawing (some file) s =
      (true,
        { s with
          baseImage := loadCopy (fun i => file.getD (54 + i) 0) s.baseImage,
          rotatedImage := loadCopy (fun i => file.getD (54 + i) 0) s.rotatedImage,
          scratchMask := fun i => if i < FB_WIDTH * FB_HEIGHT then 255 else s.scratchMask i,
          undoTop := 0,
          redoTop := 0 }) := by
  simp only [loadDrawing, h]
  norm_num

/-- C6: exporting any composited frame with `saveScreenshot` and importing the
resulting file with `loadDrawing` succeeds and reproduces the original bytes
exactly, in both canvas layers, at every framebuffer index
`(x*240 + (239-y))*3 + c` the export read from. -/
theorem saveScreenshot_loadDrawing_roundtrip (fb : Nat → Nat) (s : AppState)
    (x y c : Nat) (hx : x < 320) (hy : y < 240) (hc : c < 3) :
    (loadDrawing (some (saveScreenshot fb)) s).1 = true ∧
    (loadDrawing (some (saveScreenshot fb)) s).2.baseImage
        ((x * 240 + (239 - y)) * 3 + c) = fb ((x * 240 + (239 - y)) * 3 + c) ∧
    (loadDrawing (some (saveScreenshot fb)) s).2.rotatedImage
        ((x * 240 + (239 - y)) * 3 + c) = fb ((x * 240 + (239 - y)) * 3 + c) := by
  have hhead : ∀ n : Nat, n < 54 → (saveScreenshot fb).getD n 0 = bmpHeader.getD n 0 := by
    intro n hn
    rw [saveScreenshot, getD_append_left _ _ _ _ (by rw [bmpHeader_length]; omega)]
  have hread : readBMPHeader (saveScreenshot fb) = some (320, 240) := by
    rw [readBMPHeader, le32, le32]
    rw [hhead 0 (by omega), hhead 1 (by omega), hhead 18 (by omega), hhead 19 (by omega),
        hhead 20 (by omega), hhead 21 (by omega), hhead 22 (by omega), hhead 23 (by omega),
        hhead 24 (by omega), hhead 25 (by omega)]
    decide
  have hpix : ∀ i : Nat, (saveScreenshot fb).getD (54 + i) 0 = (bmpPixelData fb).getD i 0 := by
    intro i
    rw [saveScreenshot, getD_append_right _ _ _ _ (by rw [bmpHeader_length]; omega)]
    rw [bmpHeader_length]
    congr 1
    omega
  rw [loadDrawing_success _ _ hread]
  refine ⟨rfl, ?_, ?_⟩ <;>
  · dsimp only
    rw [loadCopy_getD _ _ x y c hx hy hc]
    exact (hpix _).trans (bmpPixelData_getD fb x y c hx hy hc)

/-- Witness for C6: round-trip a concrete frame and read back one byte. -/
theorem saveScreenshot_loadDrawing_roundtrip_witness :
    (loadDrawing (some (saveScreenshot (fun i => i % 256))) initState).2.baseImage
        ((5 * 240 + (239 - 7)) * 3 + 1) = ((5 * 240 + (239 - 7)) * 3 + 1) % 256 :=
  (saveScreenshot_loadDrawing_roundtrip (fun i => i % 256) initState 5 7 1
    (by decide) (by decide) (by decide)).2.1

/-- C7: `loadDrawing` returns `false` and leaves the whole state unchanged
when the file cannot be opened, when the BMP magic is wrong, or when the
declared dimensions are not 320x240. -/
theorem loadDrawing_failure (file : List Nat) (s : AppState) :
    loadDrawing none s = (false, s) ∧
    (¬(file.getD 0 0 = 66 ∧ file.getD 1 0 = 77) →
      loadDrawing (some file) s = (false, s)) ∧
    (le32 file 18 ≠ 320 ∨ le32 file 22 ≠ 240 →
      loadDrawing (some file) s = (false, s)) := by
  refine ⟨rfl, ?_, ?_⟩
  · intro hmagic
    simp only [loadDrawing, readBMPHeader, if_neg hmagic]
  · intro hdim
    by_cases hmagic : file.getD 0 0 = 66 ∧ file.getD 1 0 = 77
    · simp only [loadDrawing, readBMPHeader, if_pos hmagic]
      rw [if_pos hdim]
    · simp only [loadDrawing, readBMPHeader, if_neg hmagic]

/-- Witness for C7: a one-byte file has the wrong magic and is rejected with
the state untouched. -/
theorem loadDrawing_failure_witness :
    loadDrawing (some [0]) initState = (false, initState) :=
  (loadDrawing_failure [0] initState).2.1 (by decide)

/-! ### C8 — right-eye stereo pass (main loop, step 4)

One source pixel of the right-eye pass: read the mask alpha at the pixel's
index, choose the destination column (`x + 40 + (int)depthOffset` when
`alpha > 128`, else the centered `x + 40`), and copy the three bytes there
only when the column lies in `[0, 400)`; `d` is the truncated integer value of
the float `depthOffset`. -/

/-- Destination column of the right-eye pass for one source column. -/
def rightEyeDstX (alpha : Nat) (x d : Int) : Int :=
  if 128 < alpha then x + 40 + d else x + 40

/-- Destination column of the left-eye pass (always centered, no offset). -/
def leftEyeDstX (x : Int) : Int := x + 40

/-- The body of the right-eye double loop for one source pixel `(x, y)`. -/
def rightEyeStep (mask comp : Int → Nat) (d : Int) (buf : Int → Nat)
    (p : Int × Int) : Int → Nat :=
  let srcIdx := (p.1 * 240 + (239 - p.2)) * 3
  let maskIdx := p.1 * 240 + (239 - p.2)
  let dstX := rightEyeDstX (mask maskIdx) p.1 d
  if 0 ≤ dstX ∧ dstX < 400 then
    let dstIdx := (dstX * 240 + (239 - p.2)) * 3
    upd (upd (upd buf dstIdx (comp srcIdx))
        (dstIdx + 1) (comp (srcIdx + 1)))
      (dstIdx + 2) (comp (srcIdx + 2))
  else buf

/-- The whole right-eye pass: clear the padded buffer to zero, then place
every source pixel (outer loop on `x`, inner on `y`). -/
def rightEyePass (mask comp : Int → Nat) (d : Int) : Int → Nat :=
  (prodList ((List.range 320).map (fun (k : Nat) => (k : Int)))
      ((List.range 240).map (fun (k : Nat) => (k : Int)))).foldl
    (rightEyeStep mask comp d) (fun _ => 0)

/-- C8: in the right-eye pass, a pixel whose mask alpha exceeds 128 is placed
at the left-eye column shifted by exactly the integer depth offset, a pixel
with alpha at most 128 is placed at the unshifted centered column, a pixel
whose destination column falls outside `[0, 400)` is dropped (the step leaves
the buffer untouched, no wraparound), and an in-range pixel's three bytes are
stored at the shifted destination index. -/
theorem rightEye_placement (mask comp : Int → Nat) (d : Int) (buf : Int → Nat)
    (x y : Int) :
    (128 < mask (x * 240 + (239 - y)) →
      rightEyeDstX (mask (x * 240 + (239 - y))) x d = leftEyeDstX x + d) ∧
    (∀ a : Nat, a ≤ 128 → rightEyeDstX a x d = leftEyeDstX x) ∧
    (¬(0 ≤ rightEyeDstX (mask (x * 240 + (239 - y))) x d ∧
        rightEyeDstX (mask (x * 240 + (239 - y))) x d < 400) →
      rightEyeStep mask comp d buf (x, y) = buf) ∧
    (0 ≤ rightEyeDstX (mask (x * 240 + (239 - y))) x d ∧
        rightEyeDstX (mask (x * 240 + (239 - y))) x d < 400 →
      ∀ c : Int, 0 ≤ c → c < 3 →
        rightEyeStep mask comp d buf (x, y)
            ((rightEyeDstX (mask (x * 240 + (239 - y))) x d * 240 + (239 - y)) * 3 + c) =
          comp ((x * 240 + (239 - y)) * 3 + c)) := by
  refine ⟨?_, ?_, ?_, ?_⟩
  · intro h
    rw [rightEyeDstX, if_pos h, leftEyeDstX]
  · intro a ha
    rw [rightEyeDstX, if_neg (by omega), leftEyeDstX]
  · intro hout
    rw [rightEyeStep]
    simp only
    rw [if_neg hout]
  · intro hin c hc0 hc3
    rw [rightEyeStep]
    simp only
    rw [if_pos hin]
    set D := rightEyeDstX (mask (x * 240 + (239 - y))) x d with hD
    have h3 : c = 0 ∨ c = 1 ∨ c = 2 := by omega
    rcases h3 with rfl | rfl | rfl <;>
      (simp only [upd]; split_ifs <;> first | rfl | (exfalso; omega) | (congr 1; omega))

/-- Witness for C8: the scenario of the spec, depth offset +10, alpha 200,
at source pixel (50, 60): the pixel is placed at column 100 = (50+40)+10,
shifted by exactly +10 relative to the left eye. -/
theorem rightEye_placement_witness :
    rightEyeDstX ((fun _ => (200 : Nat)) ((50:Int) * 240 + (239 - 60))) 50 10 =
      leftEyeDstX 50 + 10 :=
  (rightEye_placement (fun _ => 200) (fun _ => 0) 10 (fun _ => 0) 50 60).1 (by decide)

/-! ### C9 — style mutations and pattern generation (main loop, lines 1127-1189)

Drawing modes are the enum values 0 = checkerboard-on-black,
1 = checkerboard-on-white, 2 = color-on-white, 3 = color-on-black; brush
shapes are 0 = circle, 1 = square, 2 = soft. -/

/-- The fixed rainbow palette, as `(r, g, b)` triples. -/
def rainbowColors : List (Nat × Nat × Nat) :=
  [(65, 105, 225), (138, 43, 226), (220, 20, 60),
   (255, 140, 0), (255, 215, 0), (34, 139, 34)]

/-- Number of palette entries (`numColors`). -/
def numColors : Nat := 6

/-- The `(r, g, b)` value `generateCheckerboard` computes for screen pixel
`(x, y)`. -/
def checkerRGB (mode colorIndex cellSize x y : Nat) : Nat × Nat × Nat :=
  if mode = 2 then (255, 255, 255)
  else if mode = 3 then (20, 20, 20)
  else
    let cellX := x / cellSize
    let cellY := y / cellSize
    if (cellX + cellY) % 2 = 1 then rainbowColors.getD colorIndex (0, 0, 0)
    else if mode = 0 then (0, 0, 0) else (255, 255, 255)

/-- The `(r, g, b)` value `generateRotatedCheckerboard` computes for screen
pixel `(x, y)` (checker cell taken at the rotated pair `(y, 320 - x - 1)`). -/
def rotatedRGB (mode colorIndex cellSize x y : Nat) : Nat × Nat × Nat :=
  if mode = 2 ∨ mode = 3 then rainbowColors.getD colorIndex (0, 0, 0)
  else
    let rotX := y
    let rotY := 320 - x - 1
    let cellX := rotX / cellSize
    let cellY := rotY / cellSize
    if (cellX + cellY) % 2 = 1 then rainbowColors.getD colorIndex (0, 0, 0)
    else if mode = 0 then (0, 0, 0) else (255, 255, 255)

/-- Definition of `generateCheckerboard` from the source: for every screen pixel, write the
B, G, R bytes at `offset = (x * FB_WIDTH + (FB_HEIGHT - 1 - y)) * 3`
(`FB_WIDTH = 240`, `FB_HEIGHT = 320`, hence `319 - y`), guarded by
`offset < FB_WIDTH * FB_HEIGHT * 3 - 2`. -/
def generateCheckerboard (mode colorIndex cellSize : Nat) (buffer : Nat → Nat) :
    Nat → Nat :=
  (prodList (List.range 320) (List.range 240)).foldl
    (fun buf p =>
      let rgb := checkerRGB mode colorIndex cellSize p.1 p.2
      let offset := (p.1 * 240 + (319 - p.2)) * 3
      if offset < 240 * 320 * 3 - 2 then
        upd (upd (upd buf offset rgb.2.2) (offset + 1) rgb.2.1) (offset + 2) rgb.1
      else buf)
    buffer

/-- Definition of `generateRotatedCheckerboard` from the source (same addressing, rotated
cell computation). -/
def generateRotatedCheckerboard (mode colorIndex cellSize : Nat)
    (buffer : Nat → Nat) : Nat → Nat :=
  (prodList (List.range 320) (List.range 240)).foldl
    (fun buf p =>
      let rgb := rotatedRGB mode colorIndex cellSize p.1 p.2
      let offset := (p.1 * 240 + (319 - p.2)) * 3
      if offset < 240 * 320 * 3 - 2 then
        upd (upd (upd buf offset rgb.2.2) (offset + 1) rgb.2.1) (offset + 2) rgb.1
      else buf)
    buffer

/-- X button: snapshot, then clear the mask to 255 and reset the 3D depth. -/
def pressX (s : AppState) : AppState :=
  let s1 := pushUndo s
  { s1 with
    scratchMask := fun i => if i < FB_WIDTH * FB_HEIGHT then 255 else s1.scratchMask i,
    depthOffset := 3 }

/-- B button: cycle the drawing mode and regenerate both layers. -/
def pressB (s : AppState) : AppState :=
  let mode := (s.currentMode + 1) % 4
  { s with
    currentMode := mode,
    baseImage := generateCheckerboard mode s.currentColorIndex 20 s.baseImage,
    rotatedImage := generateRotatedCheckerboard mode s.currentColorIndex 20 s.rotatedImage }

/-- A button: cycle the brush shape (and nothing else). -/
def pressA (s : AppState) : AppState :=
  { s with currentBrushShape := (s.currentBrushShape + 1) % 3 }

/-- D-pad right: next palette color and regenerate both layers. -/
def pressDRight (s : AppState) : AppState :=
  let ci := (s.currentColorIndex + 1) % numColors
  { s with
    currentColorIndex := ci,
    baseImage := generateCheckerboard s.currentMode ci 20 s.baseImage,
    rotatedImage := generateRotatedCheckerboard s.currentMode ci 20 s.rotatedImage }

/-- D-pad left: previous palette color and regenerate both layers. -/
def pressDLeft (s : AppState) : AppState :=
  let ci := (s.currentColorIndex + numColors - 1) % numColors
  { s with
    currentColorIndex := ci,
    baseImage := generateCheckerboard s.currentMode ci 20 s.baseImage,
    rotatedImage := generateRotatedCheckerboard s.currentMode ci 20 s.rotatedImage }

/-- D-pad up: increase the brush radius, clamped to 50. -/
def pressDUp (s : AppState) : AppState :=
  { s with brushSize := if 50 < s.brushSize + 1 then 50 else s.brushSize + 1 }

/-- D-pad down: decrease the brush radius, clamped to 1. -/
def pressDDown (s : AppState) : AppState :=
  { s with brushSize := if s.brushSize - 1 < 1 then 1 else s.brushSize - 1 }

/-- Circle pad: outside the dead zone, accumulate `-dy / 1000` into the depth
offset and clamp it to `[-10, 15]` (float arithmetic modelled exactly over
the rationals). -/
def adjustDepth (dy : Int) (s : AppState) : AppState :=
  if 20 < |dy| then
    let adjusted := s.depthOffset + -(dy : Rat) / 1000
    { s with
      depthOffset :=
        if adjusted < -10 then -10 else if 15 < adjusted then 15 else adjusted }
  else s

/-- The state used by the C9 counterexample: checkerboard-on-white mode,
color 0, circle brush, and a base layer holding the constant byte 7 (which is
not what regeneration would produce). -/
def s9 : AppState where
  baseImage := fun _ => 7
  rotatedImage := fun _ => 7
  scratchMask := fun _ => 255
  undoStack := fun _ _ => 0
  redoStack := fun _ _ => 0
  undoTop := 0
  redoTop := 0
  currentMode := 1
  currentColorIndex := 0
  currentBrushShape := 0
  brushSize := 5
  depthOffset := 3

/-- Reading back the blue byte that `generateCheckerboard` wrote for screen
pixel `(x, y)` (the offsets `(x*240 + (319-y))*3` are pairwise distinct over
the valid domain, so the pixel's own loop step is the unique writer). -/
theorem generateCheckerboard_at (mode colorIndex cellSize : Nat)
    (buffer : Nat → Nat) (x y : Nat) (hx : x < 320) (hy : y < 240)
    (hoff : (x * 240 + (319 - y)) * 3 < 240 * 320 * 3 - 2) :
    generateCheckerboard mode colorIndex cellSize buffer ((x * 240 + (319 - y)) * 3) =
      (checkerRGB mode colorIndex cellSize x y).2.2 := by
  have hstep : ∀ g : Nat → Nat,
      (if (x * 240 + (319 - y)) * 3 < 240 * 320 * 3 - 2 then
        upd (upd (upd g ((x * 240 + (319 - y)) * 3)
              (checkerRGB mode colorIndex cellSize x y).2.2)
            ((x * 240 + (319 - y)) * 3 + 1)
            (checkerRGB mode colorIndex cellSize x y).2.1)
          ((x * 240 + (319 - y)) * 3 + 2)
          (checkerRGB mode colorIndex cellSize x y).1
      else g) ((x * 240 + (319 - y)) * 3) =
      (checkerRGB mode colorIndex cellSize x y).2.2 := by
    intro g
    rw [if_pos hoff, upd_other _ _ _ _ (by omega), upd_other _ _ _ _ (by omega)]
    exact upd_self _ _ _
  simp only [generateCheckerboard]
  refine (foldl_single_writer _ ((x * 240 + (319 - y)) * 3) _ buffer
      (nodup_prodList (List.nodup_range 320) (List.nodup_range 240)) (x, y)
      (mem_prodList.mpr ⟨List.mem_range.mpr hx, List.mem_range.mpr hy⟩)
      ?_ (fun g g' _ => (hstep g).trans (hstep g').symm)).trans (hstep buffer)
  rintro ⟨x', y'⟩ hq hqne g
  have hqmem := mem_prodList.mp hq
  have hx' : x' < 320 := List.mem_range.mp hqmem.1
  have hy' : y' < 240 := List.mem_range.mp hqmem.2
  have hne : ¬(x' = x ∧ y' = y) := by
    rintro ⟨rfl, rfl⟩
    exact hqne rfl
  dsimp only
  by_cases hg : (x' * 240 + (319 - y')) * 3 < 240 * 320 * 3 - 2
  · rw [if_pos hg, upd_other _ _ _ _ (by omega), upd_other _ _ _ _ (by omega),
      upd_other _ _ _ _ (by omega)]
  · rw [if_neg hg]

/-- C9 counterexample: cycling the brush shape (A button) mutates a
StyleState field but does not regenerate the canvas: the base layer keeps its
old byte 7 at index 240, while regeneration from the resulting style state
would put 225 (the blue byte of the colored checker cell of pixel (0, 239))
there. -/
theorem styleState_counterexample :
    (pressA s9).currentBrushShape ≠ s9.currentBrushShape ∧
    (pressA s9).baseImage 240 = 7 ∧
    generateCheckerboard (pressA s9).currentMode (pressA s9).currentColorIndex 20
        (pressA s9).baseImage 240 = 225 := by
  refine ⟨by decide, rfl, ?_⟩
  have h := generateCheckerboard_at 1 0 20 (fun _ => 7) 0 239 (by decide) (by decide)
      (by decide)
  have hidx : ((0 : Nat) * 240 + (319 - 239)) * 3 = 240 := by decide
  rw [hidx] at h
  have hval : (checkerRGB 1 0 20 0 239).2.2 = 225 := by decide
  rw [hval] at h
  exact h

set_option maxRecDepth 4000 in
/-- C9 as amended: mutations of the drawing mode or palette color index
regenerate both canvas layers; mutations of the brush shape, brush radius, or
stereo depth offset leave both canvas layers unchanged (no regeneration
occurs); no StyleState mutation modifies the erase mask; the erase mask is
overwritten to 255 on an explicit canvas clear. -/
theorem styleState_mutation_effects (s : AppState) (dy : Int) :
    ((pressB s).baseImage =
        generateCheckerboard ((s.currentMode + 1) % 4) s.currentColorIndex 20 s.baseImage ∧
      (pressB s).rotatedImage =
        generateRotatedCheckerboard ((s.currentMode + 1) % 4) s.currentColorIndex 20
          s.rotatedImage ∧
      (pressB s).scratchMask = s.scratchMask) ∧
    ((pressDRight s).baseImage =
        generateCheckerboard s.currentMode ((s.currentColorIndex + 1) % numColors) 20
          s.baseImage ∧
      (pressDRight s).rotatedImage =
        generateRotatedCheckerboard s.currentMode ((s.currentColorIndex + 1) % numColors)
          20 s.rotatedImage ∧
      (pressDRight s).scratchMask = s.scratchMask) ∧
    ((pressDLeft s).baseImage =
        generateCheckerboard s.currentMode
          ((s.currentColorIndex + numColors - 1) % numColors) 20 s.baseImage ∧
      (pressDLeft s).rotatedImage =
        generateRotatedCheckerboard s.currentMode
          ((s.currentColorIndex + numColors - 1) % numColors) 20 s.rotatedImage ∧
      (pressDLeft s).scratchMask = s.scratchMask) ∧
    ((pressA s).baseImage = s.baseImage ∧ (pressA s).rotatedImage = s.rotatedImage ∧
      (pressA s).scratchMask = s.scratchMask) ∧
    ((pressDUp s).baseImage = s.baseImage ∧ (pressDUp s).rotatedImage = s.rotatedImage ∧
      (pressDUp s).scratchMask = s.scratchMask) ∧
    ((pressDDown s).baseImage = s.baseImage ∧
      (pressDDown s).rotatedImage = s.rotatedImage ∧
      (pressDDown s).scratchMask = s.scratchMask) ∧
    ((adjustDepth dy s).baseImage = s.baseImage ∧
      (adjustDepth dy s).rotatedImage = s.rotatedImage ∧
      (adjustDepth dy s).scratchMask = s.scratchMask) ∧
    (∀ i : Nat, i < FB_WIDTH * FB_HEIGHT → (pressX s).scratchMask i = 255) := by
  refine ⟨⟨?_, ?_, ?_⟩, ⟨?_, ?_, ?_⟩, ⟨?_, ?_, ?_⟩, ⟨?_, ?_, ?_⟩,
    ⟨?_, ?_, ?_⟩, ⟨?_, ?_, ?_⟩, ⟨?_, ?_, ?_⟩, ?_⟩
  · simp only [pressB]
  · simp only [pressB]
  · simp only [pressB]
  · simp only [pressDRight]
  · simp only [pressDRight]
  · simp only [pressDRight]
  · simp only [pressDLeft]
  · simp only [pressDLeft]
  · simp only [pressDLeft]
  · simp only [pressA]
  · simp only [pressA]
  · simp only [pressA]
  · simp only [pressDUp]
  · simp only [pressDUp]
  · simp only [pressDUp]
  · simp only [pressDDown]
  · simp only [pressDDown]
  · simp only [pressDDown]
  · simp only [adjustDepth]
    split_ifs <;> rfl
  · simp only [adjustDepth]
    split_ifs <;> rfl
  · simp only [adjustDepth]
    split_ifs <;> rfl
  · intro i hi
    simp only [pressX]
    rw [if_pos hi]

/-- Witness for the amended C9: clearing the canvas sets mask cell 0 to 255. -/
theorem styleState_mutation_effects_witness :
    (pressX s9).scratchMask 0 = 255 :=
  (styleState_mutation_effects s9 0).2.2.2.2.2.2.2 0 (by decide)
